import Mathlib

/-!
Verification of the gemini-code-reviewer repository against its
natural-language specification.

The repository contains one Go source file (`go_code_example_before_fix.go`)
and documentation describing a review pipeline (DiffNormalizer, FileFilter,
ChunkPlanner, ReviewClient, SuggestionParser, CommentMapper,
CommentPublisher).  The Go file is embedded directly; the pipeline
components have no implementation under the sources, so each is modelled
from the specification text (marked `Modelled from the spec:` below).
-/

namespace GeminiReviewer

/-! ## Embedding of `go_code_example_before_fix.go` -/

/-- Go struct `AssociateAccessPolicyInput` with fields `PolicyArn`, `TargetId`. -/
structure AssociateAccessPolicyInput where
  policyArn : String
  targetId : String
deriving Repr, DecidableEq

/-- Observable outcome of one `handleRequest` call: the returned error
(`none` models Go's `nil` error) and what, if anything, `fmt.Printf` wrote. -/
structure HandleResult where
  err : Option String
  printed : Option String
deriving Repr, DecidableEq

/-- Model of Go's `encoding/json.Unmarshal` as called with a `*AssociateAccessPolicyInput`
destination (`Option` models the pointer, `none` is the nil pointer).
The standard library is an external collaborator, so its two data-dependent
ingredients are parameters: `checkValid` (syntax validation, `some e` = syntax
error `e`) and `decode` (the successful decode).  Its fixed control structure is
embedded: `Unmarshal` first validates the input, then rejects a nil pointer
destination with `InvalidUnmarshalError` before any decoding, and never panics. -/
def jsonUnmarshal (checkValid : List UInt8 → Option String)
    (decode : List UInt8 → AssociateAccessPolicyInput)
    (data : List UInt8) (dest : Option AssociateAccessPolicyInput) :
    Except String AssociateAccessPolicyInput :=
  match checkValid data with
  | some e => .error e
  | none =>
    match dest with
    | none => .error "json: Unmarshal(nil *main.AssociateAccessPolicyInput)"
    | some _ => .ok (decode data)

/-- Embedding of `handleRequest` from `go_code_example_before_fix.go`:
`var input *AssociateAccessPolicyInput` leaves `input` nil; `json.Unmarshal`
is called with that nil destination; on error the function returns the error,
otherwise it prints via `fmt.Printf` and returns nil. -/
def handleRequest (checkValid : List UInt8 → Option String)
    (decode : List UInt8 → AssociateAccessPolicyInput)
    (jsonData : List UInt8) : HandleResult :=
  let input : Option AssociateAccessPolicyInput := none
  match jsonUnmarshal checkValid decode jsonData input with
  | .error e => { err := some e, printed := none }
  | .ok v =>
      { err := none
        printed := some ("Policy: " ++ v.policyArn ++ ", Target: " ++ v.targetId) }

/-! ## Diff data model (spec section 3) -/

/-- Origin tag of a diff line. -/
inductive Origin
  | added
  | removed
  | context
deriving Repr, DecidableEq

/-- Modelled from the spec: a `Line` carries content, an origin tag, and
nullable old/new line numbers. -/
structure Line where
  content : String
  origin : Origin
  oldNo : Option Nat
  newNo : Option Nat
deriving Repr, DecidableEq

/-- Modelled from the spec: a `Hunk` is a file path, old/new range starts and
an ordered sequence of lines. -/
structure Hunk where
  path : String
  oldStart : Nat
  newStart : Nat
  lines : List Line
deriving Repr, DecidableEq

/-- Number of lines of a hunk (its size for filtering and chunking). -/
def hunkSize (h : Hunk) : Nat := h.lines.length

/-- Assign dual line numbers to a run of raw (origin, content) body lines,
starting from the hunk header's old/new start positions: an added line
consumes a new number only, a removed line an old number only, a context
line one of each. -/
def numberLines : Nat → Nat → List (Origin × String) → List Line
  | _, _, [] => []
  | o, n, (Origin.added, c) :: rest =>
      ⟨c, Origin.added, none, some n⟩ :: numberLines o (n + 1) rest
  | o, n, (Origin.removed, c) :: rest =>
      ⟨c, Origin.removed, some o, none⟩ :: numberLines (o + 1) n rest
  | o, n, (Origin.context, c) :: rest =>
      ⟨c, Origin.context, some o, some n⟩ :: numberLines (o + 1) (n + 1) rest

/-- Forget the assigned numbers of a line, keeping origin and content. -/
def stripLine (l : Line) : Origin × String := (l.origin, l.content)

/-- The origin-tag numbering invariant of spec section 3: added lines have a
new number and no old number, removed lines the inverse, context lines both. -/
def LineInvariant (l : Line) : Prop :=
  (l.origin = Origin.added → l.oldNo = none ∧ l.newNo.isSome) ∧
  (l.origin = Origin.removed → l.oldNo.isSome ∧ l.newNo = none) ∧
  (l.origin = Origin.context → l.oldNo.isSome ∧ l.newNo.isSome)

theorem numberLines_strip (o n : Nat) (xs : List (Origin × String)) :
    (numberLines o n xs).map stripLine = xs := by
  induction xs generalizing o n with
  | nil => rfl
  | cons x rest ih =>
    obtain ⟨og, c⟩ := x
    cases og <;> simp [numberLines, stripLine, ih]

theorem numberLines_invariant (o n : Nat) (xs : List (Origin × String)) :
    ∀ l ∈ numberLines o n xs, LineInvariant l := by
  induction xs generalizing o n with
  | nil => intro l hl; simp [numberLines] at hl
  | cons x rest ih =>
    obtain ⟨og, c⟩ := x
    intro l hl
    cases og <;> simp only [numberLines, List.mem_cons] at hl <;>
      rcases hl with h | h <;>
      first
        | (subst h; simp [LineInvariant])
        | exact ih _ _ l h

/-! ## DiffNormalizer (spec section 4.1)

Modelled from the spec: DiffNormalizer converts a raw unified diff into
per-file hunk groups in file-path lexical order, hunks within a file in diff
order, tracking dual line numbering; a malformed item fails the whole file's
hunks but not other files.  The raw diff text is represented pre-lexed as a
stream of diff items (file header / hunk header / body line / malformed). -/

/-- One lexed physical line of a raw unified diff. -/
inductive DiffItem
  | fileHeader (path : String)
  | hunkHeader (oldStart newStart : Nat)
  | bodyLine (origin : Origin) (content : String)
  | malformed (text : String)
deriving Repr, DecidableEq

/-- Collect the leading run of body lines; return them (as raw origin/content
pairs) with the remaining items. -/
def takeBody : List DiffItem → List (Origin × String) × List DiffItem
  | [] => ([], [])
  | DiffItem.bodyLine o c :: rest =>
      let r := takeBody rest
      ((o, c) :: r.1, r.2)
  | DiffItem.fileHeader p :: rest => ([], DiffItem.fileHeader p :: rest)
  | DiffItem.hunkHeader o n :: rest => ([], DiffItem.hunkHeader o n :: rest)
  | DiffItem.malformed t :: rest => ([], DiffItem.malformed t :: rest)

theorem takeBody_snd_length (items : List DiffItem) :
    (takeBody items).2.length ≤ items.length := by
  induction items with
  | nil => simp [takeBody]
  | cons x rest ih =>
    cases x <;> simp [takeBody] <;> omega

/-- Collect the items of the current file section, up to the next file header. -/
def takeSection : List DiffItem → List DiffItem × List DiffItem
  | [] => ([], [])
  | DiffItem.fileHeader p :: rest => ([], DiffItem.fileHeader p :: rest)
  | x :: rest =>
      let r := takeSection rest
      (x :: r.1, r.2)

theorem takeSection_snd_length (items : List DiffItem) :
    (takeSection items).2.length ≤ items.length := by
  induction items with
  | nil => simp [takeSection]
  | cons x rest ih =>
    cases x <;> simp [takeSection] <;> omega

/-- Split the item stream into per-file sections, in encounter order.
Items before the first file header belong to no file and are dropped. -/
def splitFiles : List DiffItem → List (String × List DiffItem)
  | [] => []
  | DiffItem.fileHeader p :: rest =>
      (p, (takeSection rest).1) :: splitFiles (takeSection rest).2
  | DiffItem.hunkHeader _ _ :: rest => splitFiles rest
  | DiffItem.bodyLine _ _ :: rest => splitFiles rest
  | DiffItem.malformed _ :: rest => splitFiles rest
termination_by items => items.length
decreasing_by
  all_goals simp_wf
  exact Nat.lt_succ_of_le (takeSection_snd_length rest)

/-- Parse one file's section into hunks, numbering each hunk's lines from its
header's start positions.  Any item that is not a hunk header where one is
expected (a malformed header, a stray body line, …) fails the whole file:
the flag `false` is returned and the caller drops the file's hunks. -/
def parseSection (path : String) : List DiffItem → List Hunk × Bool
  | [] => ([], true)
  | DiffItem.hunkHeader o n :: rest =>
      let r := parseSection path (takeBody rest).2
      (⟨path, o, n, numberLines o n (takeBody rest).1⟩ :: r.1, r.2)
  | DiffItem.fileHeader _ :: _ => ([], false)
  | DiffItem.bodyLine _ _ :: _ => ([], false)
  | DiffItem.malformed _ :: _ => ([], false)
termination_by items => items.length
decreasing_by
  simp_wf
  exact Nat.lt_succ_of_le (takeBody_snd_length rest)

/-- Parse every file section; a section that fails to parse contributes a
recorded parse failure instead of its hunks, leaving other files intact. -/
def parseFileList : List (String × List DiffItem) → List (String × List Hunk) × List String
  | [] => ([], [])
  | (p, sec) :: rest =>
      let r := parseSection p sec
      let r2 := parseFileList rest
      if r.2 then ((p, r.1) :: r2.1, r2.2)
      else (r2.1, ("ParseFailure: malformed hunk in " ++ p) :: r2.2)

/-- Lexical order on per-file groups, by file path. -/
def leByPath (a b : String × List Hunk) : Prop := a.1 ≤ b.1

instance : DecidableRel leByPath := fun a b => inferInstanceAs (Decidable (a.1 ≤ b.1))

instance : IsTotal (String × List Hunk) leByPath := ⟨fun a b => le_total a.1 b.1⟩

instance : IsTrans (String × List Hunk) leByPath := ⟨fun _ _ _ hab hbc => le_trans hab hbc⟩

/-- DiffNormalizer: parse the lexed diff into per-file hunk groups, then
order the groups by file path (hunks inside a group keep diff order); also
returns the per-file parse failures. -/
def diffNormalizer (items : List DiffItem) : List (String × List Hunk) × List String :=
  (List.insertionSort leByPath (parseFileList (splitFiles items)).1,
   (parseFileList (splitFiles items)).2)

/-- Re-render one hunk back to unified-diff form (header line, then body lines). -/
def renderHunk (h : Hunk) : List DiffItem :=
  DiffItem.hunkHeader h.oldStart h.newStart ::
    h.lines.map (fun l => DiffItem.bodyLine l.origin l.content)

/-- Re-render one file group back to unified-diff form. -/
def renderGroup (g : String × List Hunk) : List DiffItem :=
  DiffItem.fileHeader g.1 :: (g.2.map renderHunk).flatten

/-- Re-render a normalized diff back to unified-diff form. -/
def renderDiff (gs : List (String × List Hunk)) : List DiffItem :=
  (gs.map renderGroup).flatten

/-- A hunk as produced by the normalizer: its path is its group's path and its
lines are exactly the numbering of their own origin/content from the hunk's
start positions. -/
def WFHunk (p : String) (h : Hunk) : Prop :=
  h.path = p ∧ h.lines = numberLines h.oldStart h.newStart (h.lines.map stripLine)

def WFGroups (gs : List (String × List Hunk)) : Prop :=
  ∀ g ∈ gs, ∀ h ∈ g.2, WFHunk g.1 h

/-- The head of the item list is not a body line. -/
def headNotBody : List DiffItem → Prop
  | [] => True
  | DiffItem.bodyLine _ _ :: _ => False
  | DiffItem.fileHeader _ :: _ => True
  | DiffItem.hunkHeader _ _ :: _ => True
  | DiffItem.malformed _ :: _ => True

/-- The list is empty or begins with a file header. -/
def headFileOrNil : List DiffItem → Prop
  | [] => True
  | DiffItem.fileHeader _ :: _ => True
  | DiffItem.bodyLine _ _ :: _ => False
  | DiffItem.hunkHeader _ _ :: _ => False
  | DiffItem.malformed _ :: _ => False

/-- No item of the list is a file header. -/
def noFileHeader (xs : List DiffItem) : Prop :=
  ∀ x ∈ xs, ∀ q, x ≠ DiffItem.fileHeader q

theorem takeBody_not_body (r : List DiffItem) (hr : headNotBody r) :
    takeBody r = ([], r) := by
  cases r with
  | nil => rfl
  | cons x rest => cases x <;> simp [takeBody, headNotBody] at hr ⊢

theorem takeBody_render (ps : List (Origin × String)) (r : List DiffItem)
    (hr : headNotBody r) :
    takeBody (ps.map (fun q => DiffItem.bodyLine q.1 q.2) ++ r) = (ps, r) := by
  induction ps with
  | nil => simpa using takeBody_not_body r hr
  | cons q rest ih => simp [takeBody, ih]

theorem headNotBody_renderFlat (hs : List Hunk) :
    headNotBody (hs.map renderHunk).flatten := by
  cases hs with
  | nil => simp [headNotBody]
  | cons h t => simp [renderHunk, headNotBody]

theorem noFileHeader_renderFlat (hs : List Hunk) :
    noFileHeader (hs.map renderHunk).flatten := by
  intro x hx q
  simp only [List.mem_flatten, List.mem_map] at hx
  obtain ⟨l, ⟨h, _, rfl⟩, hxl⟩ := hx
  simp only [renderHunk, List.mem_cons, List.mem_map] at hxl
  rcases hxl with rfl | ⟨l', _, rfl⟩ <;> simp

theorem takeSection_not_file (r : List DiffItem) (hr : headFileOrNil r) :
    takeSection r = ([], r) := by
  cases r with
  | nil => rfl
  | cons x rest => cases x <;> simp [takeSection, headFileOrNil] at hr ⊢

theorem takeSection_split (xs r : List DiffItem) (hx : noFileHeader xs)
    (hr : headFileOrNil r) : takeSection (xs ++ r) = (xs, r) := by
  induction xs with
  | nil => simpa using takeSection_not_file r hr
  | cons x t ih =>
    have hxt : noFileHeader t := fun y hy => hx y (by simp [hy])
    have hx0 := hx x (by simp)
    cases x with
    | fileHeader q => exact absurd rfl (hx0 q)
    | hunkHeader o n => simp [takeSection, ih hxt]
    | bodyLine o c => simp [takeSection, ih hxt]
    | malformed t0 => simp [takeSection, ih hxt]

theorem headFileOrNil_renderDiff (gs : List (String × List Hunk)) :
    headFileOrNil (renderDiff gs) := by
  cases gs with
  | nil => simp [renderDiff, headFileOrNil]
  | cons g t => simp [renderDiff, renderGroup, headFileOrNil]

theorem splitFiles_render (gs : List (String × List Hunk)) :
    splitFiles (renderDiff gs) =
      gs.map (fun g => (g.1, (g.2.map renderHunk).flatten)) := by
  induction gs with
  | nil => simp [renderDiff, splitFiles]
  | cons g t ih =>
    have hts : takeSection ((g.2.map renderHunk).flatten ++ renderDiff t) =
        ((g.2.map renderHunk).flatten, renderDiff t) :=
      takeSection_split _ _ (noFileHeader_renderFlat g.2) (headFileOrNil_renderDiff t)
    simp [renderDiff, renderGroup, splitFiles] at hts ⊢
    simp [hts, ← ih, renderDiff]

theorem parseSection_render (p : String) (hs : List Hunk)
    (hwf : ∀ h ∈ hs, WFHunk p h) :
    parseSection p (hs.map renderHunk).flatten = (hs, true) := by
  induction hs with
  | nil => simp [parseSection]
  | cons h t ih =>
    obtain ⟨hpath, hlines⟩ := hwf h (by simp)
    have ht : ∀ x ∈ t, WFHunk p x := fun x hx => hwf x (by simp [hx])
    have hmap : (fun l => DiffItem.bodyLine l.origin l.content) =
        ((fun q : Origin × String => DiffItem.bodyLine q.1 q.2) ∘ stripLine) := by
      funext l; rfl
    have hb := takeBody_render (h.lines.map stripLine) ((t.map renderHunk).flatten)
      (headNotBody_renderFlat t)
    rw [List.map_map] at hb
    have hhunk : Hunk.mk p h.oldStart h.newStart
        (numberLines h.oldStart h.newStart (h.lines.map stripLine)) = h := by
      obtain ⟨p0, o0, n0, l0⟩ := h
      simp only at hpath hlines ⊢
      rw [hpath, ← hlines]
    simp [renderHunk, parseSection, hmap, hb, hhunk, ih ht]

theorem parseSection_wf_aux (p : String) (n : Nat) :
    ∀ sec : List DiffItem, sec.length ≤ n →
      ∀ h ∈ (parseSection p sec).1, WFHunk p h := by
  induction n with
  | zero =>
    intro sec hlen h hh
    have : sec = [] := List.length_eq_zero.mp (Nat.le_zero.mp hlen)
    subst this
    simp [parseSection] at hh
  | succ n ih =>
    intro sec hlen h hh
    cases sec with
    | nil => simp [parseSection] at hh
    | cons x rest =>
      cases x with
      | hunkHeader o m =>
        simp only [parseSection, List.mem_cons] at hh
        rcases hh with rfl | hh
        · refine ⟨rfl, ?_⟩
          simp [numberLines_strip]
        · exact ih (takeBody rest).2
            (le_trans (takeBody_snd_length rest) (Nat.le_of_succ_le_succ hlen)) h hh
      | fileHeader q => simp [parseSection] at hh
      | bodyLine o c => simp [parseSection] at hh
      | malformed t0 => simp [parseSection] at hh

theorem parseSection_wf (p : String) (sec : List DiffItem) :
    ∀ h ∈ (parseSection p sec).1, WFHunk p h :=
  parseSection_wf_aux p sec.length sec le_rfl

theorem parseFileList_wf (secs : List (String × List DiffItem)) :
    WFGroups (parseFileList secs).1 := by
  induction secs with
  | nil => intro g hg; simp [parseFileList] at hg
  | cons s t ih =>
    intro g hg
    obtain ⟨p, sec⟩ := s
    simp only [parseFileList] at hg
    by_cases hok : (parseSection p sec).2 = true
    · simp only [hok, if_true, List.mem_cons] at hg
      rcases hg with rfl | hg
      · exact parseSection_wf p sec
      · exact ih g hg
    · simp only [if_neg hok] at hg
      exact ih g hg

theorem parseFileList_render (gs : List (String × List Hunk)) (hwf : WFGroups gs) :
    parseFileList (gs.map (fun g => (g.1, (g.2.map renderHunk).flatten))) = (gs, []) := by
  induction gs with
  | nil => simp [parseFileList]
  | cons g t ih =>
    have hg : ∀ h ∈ g.2, WFHunk g.1 h := hwf g (by simp)
    have ht : WFGroups t := fun x hx => hwf x (by simp [hx])
    obtain ⟨p, hs⟩ := g
    simp [parseFileList, parseSection_render p hs hg, ih ht]

theorem diffNormalizer_wf (D : List DiffItem) : WFGroups (diffNormalizer D).1 := by
  intro g hg
  have hperm := List.perm_insertionSort leByPath (parseFileList (splitFiles D)).1
  exact parseFileList_wf (splitFiles D) g (hperm.mem_iff.mp hg)

theorem diffNormalizer_sorted (D : List DiffItem) :
    List.Sorted leByPath (diffNormalizer D).1 :=
  List.sorted_insertionSort leByPath (parseFileList (splitFiles D)).1

/-- C10: for every raw diff `D`, `diffNormalizer D` lists files in file-path
lexical order (hunks within a file keeping their original diff order, as the
parser never reorders them), and re-rendering the normalized diff back to
unified-diff form and normalizing again reproduces exactly the same file
groups — same file order, same per-file hunk order, same hunks — with no
parse failures (structural round-trip). -/
theorem diffNormalizer_round_trip (D : List DiffItem) :
    List.Sorted (fun a b : String => a ≤ b) ((diffNormalizer D).1.map Prod.fst) ∧
    diffNormalizer (renderDiff (diffNormalizer D).1) = ((diffNormalizer D).1, []) := by
  constructor
  · exact List.pairwise_map.mpr (diffNormalizer_sorted D)
  · have hwf : WFGroups (diffNormalizer D).1 := diffNormalizer_wf D
    have hsorted := diffNormalizer_sorted D
    show (List.insertionSort leByPath
        (parseFileList (splitFiles (renderDiff (diffNormalizer D).1))).1,
      (parseFileList (splitFiles (renderDiff (diffNormalizer D).1))).2) = _
    rw [splitFiles_render, parseFileList_render _ hwf,
      List.Sorted.insertionSort_eq hsorted]

/-- C6: every `Line` produced by DiffNormalizer satisfies the origin-tag
numbering invariant — an added line has a new-line-number and no
old-line-number, a removed line the inverse, a context line both — for every
input diff and every interleaving of added, removed and context lines. -/
theorem diffNormalizer_line_invariant (D : List DiffItem)
    (g : String × List Hunk) (hg : g ∈ (diffNormalizer D).1)
    (h : Hunk) (hh : h ∈ g.2) (l : Line) (hl : l ∈ h.lines) :
    LineInvariant l := by
  have hwf := diffNormalizer_wf D g hg h hh
  rw [hwf.2] at hl
  exact numberLines_invariant _ _ _ l hl

/-- Witness for C6: a concrete one-file diff interleaving a context, a removed
and an added line; the added line produced by the normalizer satisfies the
numbering invariant. -/
theorem diffNormalizer_line_invariant_witness :
    ((("a.py", [Hunk.mk "a.py" 3 4 [⟨"c", Origin.context, some 3, some 4⟩,
        ⟨"r", Origin.removed, some 4, none⟩, ⟨"x", Origin.added, none, some 5⟩]]) :
        String × List Hunk) ∈
      (diffNormalizer [DiffItem.fileHeader "a.py", DiffItem.hunkHeader 3 4,
        DiffItem.bodyLine Origin.context "c", DiffItem.bodyLine Origin.removed "r",
        DiffItem.bodyLine Origin.added "x"]).1) ∧
    LineInvariant ⟨"x", Origin.added, none, some 5⟩ :=
  ⟨by simp [diffNormalizer, splitFiles, takeSection, parseFileList, parseSection,
      takeBody, numberLines, List.insertionSort, List.orderedInsert],
   diffNormalizer_line_invariant
    [DiffItem.fileHeader "a.py", DiffItem.hunkHeader 3 4,
      DiffItem.bodyLine Origin.context "c", DiffItem.bodyLine Origin.removed "r",
      DiffItem.bodyLine Origin.added "x"]
    ("a.py", [Hunk.mk "a.py" 3 4 [⟨"c", Origin.context, some 3, some 4⟩,
      ⟨"r", Origin.removed, some 4, none⟩, ⟨"x", Origin.added, none, some 5⟩]])
    (by simp [diffNormalizer, splitFiles, takeSection, parseFileList, parseSection,
      takeBody, numberLines, List.insertionSort, List.orderedInsert])
    (Hunk.mk "a.py" 3 4 [⟨"c", Origin.context, some 3, some 4⟩,
      ⟨"r", Origin.removed, some 4, none⟩, ⟨"x", Origin.added, none, some 5⟩])
    (by simp)
    ⟨"x", Origin.added, none, some 5⟩
    (by simp)⟩

/-! ## ChunkPlanner (spec section 4.3) -/

/-- Modelled from the spec: a ReviewChunk is an ordered sequence of hunks with
an oversized flag (set exactly when a single hunk alone exceeds the budget and
therefore forms its own flagged chunk). -/
structure ReviewChunk where
  hunks : List Hunk
  oversized : Bool
deriving Repr, DecidableEq

/-- Cumulative line count of a chunk. -/
def chunkSize (c : ReviewChunk) : Nat := (c.hunks.map hunkSize).sum

/-- Modelled from the spec: greedily accumulate whole hunks into the current
chunk (`cur`, kept in reverse order) while the cumulative size stays within
the max `L`; when adding the next hunk would exceed `L`, close the current
chunk and start a new one; a hunk alone exceeding `L` becomes its own chunk
flagged oversized. -/
def planAux (L : Nat) : List Hunk → List Hunk → List ReviewChunk
  | [], cur => if cur.isEmpty then [] else [⟨cur.reverse, false⟩]
  | h :: rest, cur =>
    if L < hunkSize h then
      (if cur.isEmpty then [] else [⟨cur.reverse, false⟩]) ++
        ⟨[h], true⟩ :: planAux L rest []
    else if L < (cur.map hunkSize).sum + hunkSize h then
      ⟨cur.reverse, false⟩ :: planAux L rest [h]
    else planAux L rest (h :: cur)

/-- Greedy chunking of a hunk sequence under the max-lines budget `L`. -/
def planChunks (hunks : List Hunk) (L : Nat) : List ReviewChunk := planAux L hunks []

/-- Modelled from the spec: ChunkPlanner chunks the filtered hunk groups under
the max-lines budget, enforcing max-files-per-review by stopping chunk
production at the cap and recording the remaining files as not reviewed. -/
def chunkPlanner (groups : List (String × List Hunk)) (L maxFiles : Nat) :
    List ReviewChunk × List String :=
  (planChunks (((groups.take maxFiles).map Prod.snd).flatten) L,
   (groups.drop maxFiles).map (fun g => "not reviewed: budget exceeded: " ++ g.1))

theorem planAux_flatten (L : Nat) (rest : List Hunk) :
    ∀ cur : List Hunk,
      ((planAux L rest cur).map ReviewChunk.hunks).flatten = cur.reverse ++ rest := by
  induction rest with
  | nil => intro cur; cases cur <;> simp [planAux]
  | cons h t ih =>
    intro cur
    by_cases h1 : L < hunkSize h
    · cases cur <;> simp [planAux, h1, ih]
    · by_cases h2 : L < (cur.map hunkSize).sum + hunkSize h
      · simp [planAux, h1, h2, ih]
      · simp [planAux, h1, h2, ih]

theorem closed_chunk_bound (L : Nat) (cur : List Hunk)
    (hcur : (cur.map hunkSize).sum ≤ L) :
    chunkSize (ReviewChunk.mk cur.reverse false) ≤ L := by
  simp only [chunkSize, List.map_reverse, List.sum_reverse]
  exact hcur

theorem planAux_bound (L : Nat) (rest : List Hunk) :
    ∀ cur : List Hunk, (cur.map hunkSize).sum ≤ L →
      ∀ c ∈ planAux L rest cur, c.oversized = false → chunkSize c ≤ L := by
  induction rest with
  | nil =>
    intro cur hcur c hc hb
    cases cur with
    | nil => simp [planAux] at hc
    | cons x xs =>
      rw [planAux] at hc
      simp only [List.isEmpty_cons, Bool.false_eq_true, if_false,
        List.mem_singleton] at hc
      subst hc
      exact closed_chunk_bound L (x :: xs) hcur
  | cons h t ih =>
    intro cur hcur c hc hb
    by_cases h1 : L < hunkSize h
    · rw [planAux, if_pos h1] at hc
      rcases List.mem_append.mp hc with hc | hc
      · cases cur with
        | nil => simp at hc
        | cons x xs =>
          simp only [List.isEmpty_cons, Bool.false_eq_true, if_false,
            List.mem_singleton] at hc
          subst hc
          exact closed_chunk_bound L (x :: xs) hcur
      · rcases List.mem_cons.mp hc with rfl | hc
        · simp at hb
        · exact ih [] (by simp) c hc hb
    · by_cases h2 : L < (cur.map hunkSize).sum + hunkSize h
      · rw [planAux, if_neg h1, if_pos h2] at hc
        rcases List.mem_cons.mp hc with rfl | hc
        · exact closed_chunk_bound L cur hcur
        · refine ih [h] ?_ c hc hb
          simp only [List.map_cons, List.sum_cons, List.map_nil, List.sum_nil]
          omega
      · rw [planAux, if_neg h1, if_neg h2] at hc
        refine ih (h :: cur) ?_ c hc hb
        simp only [List.map_cons, List.sum_cons]
        omega

theorem planAux_oversized_mem (L : Nat) (rest : List Hunk) (h : Hunk)
    (hbig : L < hunkSize h) :
    ∀ cur : List Hunk, h ∈ rest → ReviewChunk.mk [h] true ∈ planAux L rest cur := by
  induction rest with
  | nil => intro cur hmem; simp at hmem
  | cons x t ih =>
    intro cur hmem
    rcases List.mem_cons.mp hmem with rfl | hmem
    · rw [planAux, if_pos hbig]
      exact List.mem_append_right _ (List.mem_cons_self _ _)
    · by_cases h1 : L < hunkSize x
      · rw [planAux, if_pos h1]
        exact List.mem_append_right _ (List.mem_cons_of_mem _ (ih [] hmem))
      · by_cases h2 : L < (cur.map hunkSize).sum + hunkSize x
        · rw [planAux, if_neg h1, if_pos h2]
          exact List.mem_cons_of_mem _ (ih [x] hmem)
        · rw [planAux, if_neg h1, if_neg h2]
          exact ih (x :: cur) hmem

/-- C2: when the file budget is not binding, ChunkPlanner produces no chunk
that is not flagged oversized whose cumulative line count exceeds the
max-lines budget `L`, and concatenating the produced chunks' hunk sequences
gives back exactly the input hunk sequence — every input hunk appears in
exactly one output chunk, none dropped or duplicated — with no file recorded
as unreviewed. -/
theorem chunkPlanner_budget_partition (groups : List (String × List Hunk))
    (L maxFiles : Nat) (hf : groups.length ≤ maxFiles) :
    (∀ c ∈ (chunkPlanner groups L maxFiles).1, c.oversized = false → chunkSize c ≤ L) ∧
    (((chunkPlanner groups L maxFiles).1.map ReviewChunk.hunks).flatten =
      (groups.map Prod.snd).flatten) ∧
    (chunkPlanner groups L maxFiles).2 = [] := by
  have htake : groups.take maxFiles = groups := List.take_of_length_le hf
  have hdrop : groups.drop maxFiles = [] := List.drop_eq_nil_of_le hf
  refine ⟨?_, ?_, ?_⟩
  · intro c hc
    exact planAux_bound L ((groups.map Prod.snd).flatten) [] (by simp) c
      (by simpa [chunkPlanner, planChunks, htake] using hc)
  · simpa [chunkPlanner, planChunks, htake] using
      planAux_flatten L ((groups.map Prod.snd).flatten) []
  · simp [chunkPlanner, hdrop]

/-- Demo input for the C2 witness: two files, three hunks of sizes 2, 2 and 1. -/
def demoGroups : List (String × List Hunk) :=
  [("a.py", [Hunk.mk "a.py" 1 1 [⟨"u", Origin.added, none, some 1⟩,
      ⟨"v", Origin.added, none, some 2⟩]]),
   ("b.py", [Hunk.mk "b.py" 1 1 [⟨"w", Origin.added, none, some 1⟩,
      ⟨"y", Origin.added, none, some 2⟩],
    Hunk.mk "b.py" 9 9 [⟨"z", Origin.context, some 9, some 9⟩]])]

/-- Witness for C2: on `demoGroups` with budget 3 and file cap 5, the
planner's chunks respect the budget and partition the input hunks. -/
theorem chunkPlanner_budget_partition_witness :
    (demoGroups.length ≤ 5) ∧
    ((∀ c ∈ (chunkPlanner demoGroups 3 5).1, c.oversized = false → chunkSize c ≤ 3) ∧
     (((chunkPlanner demoGroups 3 5).1.map ReviewChunk.hunks).flatten =
       (demoGroups.map Prod.snd).flatten) ∧
     (chunkPlanner demoGroups 3 5).2 = []) :=
  ⟨by simp [demoGroups], chunkPlanner_budget_partition demoGroups 3 5 (by simp [demoGroups])⟩

/-- C8: a hunk whose line count alone exceeds the max-lines budget always
forms its own chunk flagged oversized within the planner's output (it is still
reviewed, not dropped), and a single such hunk yields exactly one flagged
chunk containing only that hunk. -/
theorem planChunks_oversized_own_chunk (hunks : List Hunk) (L : Nat) (h : Hunk)
    (hmem : h ∈ hunks) (hbig : L < hunkSize h) :
    ReviewChunk.mk [h] true ∈ planChunks hunks L ∧
    planChunks [h] L = [ReviewChunk.mk [h] true] := by
  refine ⟨planAux_oversized_mem L hunks h hbig [] hmem, ?_⟩
  rw [planChunks, planAux]
  simp [planAux, if_pos hbig]

/-- A 600-line hunk, the C8 scenario's input. -/
def demoBigHunk : Hunk :=
  Hunk.mk "big.py" 1 1 (List.replicate 600 ⟨"x", Origin.added, none, some 1⟩)

/-- Witness for C8: the 600-line hunk under a 500-line budget yields exactly
one chunk, containing that hunk, flagged oversized. -/
theorem planChunks_oversized_own_chunk_witness :
    (demoBigHunk ∈ [demoBigHunk] ∧ 500 < hunkSize demoBigHunk) ∧
    planChunks [demoBigHunk] 500 = [ReviewChunk.mk [demoBigHunk] true] :=
  ⟨⟨List.mem_singleton.mpr rfl,
    by simp only [demoBigHunk, hunkSize, List.length_replicate]; omega⟩,
   (planChunks_oversized_own_chunk [demoBigHunk] 500 demoBigHunk
     (List.mem_singleton.mpr rfl) (by simp only [demoBigHunk, hunkSize, List.length_replicate]; omega)).2⟩

/-- C1: for every byte slice `jsonData`, `handleRequest` terminates normally
with a non-nil error — whatever the library's JSON validity check and decode
do, the nil `*AssociateAccessPolicyInput` destination guarantees an error —
so the `Printf` statement dereferencing `input.PolicyArn` and `input.TargetId`
is never executed. -/
theorem handleRequest_always_errors (checkValid : List UInt8 → Option String)
    (decode : List UInt8 → AssociateAccessPolicyInput) (jsonData : List UInt8) :
    (handleRequest checkValid decode jsonData).err.isSome = true ∧
    (handleRequest checkValid decode jsonData).printed = none := by
  unfold handleRequest jsonUnmarshal
  cases checkValid jsonData <;> simp

/-! ## FileFilter (spec section 4.2) -/

/-- Fuel-bounded glob matcher over character lists: `*` matches any run of
characters, `?` any single character, every other character itself.  Fuel
`pattern.length + target.length + 1` is enough for any match to be decided,
since every step consumes a pattern or a target character. -/
def globMatchFuel : Nat → List Char → List Char → Bool
  | 0, _, _ => false
  | _ + 1, [], [] => true
  | _ + 1, [], _ :: _ => false
  | fuel + 1, '*' :: ps, [] => globMatchFuel fuel ps []
  | fuel + 1, '*' :: ps, c :: cs =>
      globMatchFuel fuel ps (c :: cs) || globMatchFuel fuel ('*' :: ps) cs
  | _ + 1, _ :: _, [] => false
  | fuel + 1, p :: ps, c :: cs => (p == c || p == '?') && globMatchFuel fuel ps cs

/-- Glob match of a pattern against a path. -/
def globMatch (pat s : String) : Bool :=
  globMatchFuel (pat.length + s.length + 1) pat.data s.data

/-- A path is excluded when it matches any exclude pattern. -/
def matchesAny (pats : List String) (path : String) : Bool :=
  pats.any (fun p => globMatch p path)

/-- The recorded note for a hunk dropped by the per-hunk line cap. -/
def skipNote (path : String) (h : Hunk) : String :=
  "skipped: too large: " ++ path ++ " hunk at line " ++ toString h.newStart

/-- Modelled from the spec: FileFilter drops a file entirely when its path
matches any exclude pattern, drops any hunk exceeding the per-hunk line cap
while recording a `skipped: too large` note, and treats files independently. -/
def fileFilter (pats : List String) (cap : Nat) :
    List (String × List Hunk) → List (String × List Hunk) × List String
  | [] => ([], [])
  | g :: rest =>
    if matchesAny pats g.1 then fileFilter pats cap rest
    else
      ((g.1, g.2.filter (fun h => decide (hunkSize h ≤ cap))) :: (fileFilter pats cap rest).1,
       ((g.2.filter (fun h => decide (cap < hunkSize h))).map (skipNote g.1)) ++
         (fileFilter pats cap rest).2)

/-- C9: FileFilter's output never contains an excluded file; a non-excluded
input file appears with exactly its hunks within the line cap, and each of its
hunks over the cap leaves a recorded `skipped: too large` note; and the filter
distributes over concatenation of file groups, so one file's exclusion never
affects another file's hunks. -/
theorem fileFilter_policy (pats : List String) (cap : Nat)
    (groups xs ys : List (String × List Hunk)) (p : String) (hs : List Hunk)
    (hmem : (p, hs) ∈ groups) (hkeep : matchesAny pats p = false) :
    (∀ g ∈ (fileFilter pats cap groups).1, matchesAny pats g.1 = false) ∧
    ((p, hs.filter (fun h => decide (hunkSize h ≤ cap))) ∈ (fileFilter pats cap groups).1 ∧
      ∀ h ∈ hs, cap < hunkSize h → skipNote p h ∈ (fileFilter pats cap groups).2) ∧
    fileFilter pats cap (xs ++ ys) =
      ((fileFilter pats cap xs).1 ++ (fileFilter pats cap ys).1,
       (fileFilter pats cap xs).2 ++ (fileFilter pats cap ys).2) := by
  refine ⟨?_, ?_, ?_⟩
  · clear hmem hkeep
    induction groups with
    | nil => intro g hg; simp [fileFilter] at hg
    | cons x rest ih =>
      intro g hg
      by_cases hx : matchesAny pats x.1 = true
      · rw [fileFilter, if_pos hx] at hg
        exact ih g hg
      · rw [fileFilter, if_neg hx] at hg
        rcases List.mem_cons.mp hg with rfl | hg
        · exact Bool.eq_false_iff.mpr hx
        · exact ih g hg
  · induction groups with
    | nil => simp at hmem
    | cons x rest ih =>
      rcases List.mem_cons.mp hmem with rfl | hmem
      · rw [fileFilter, if_neg (by simp [hkeep])]
        refine ⟨List.mem_cons_self _ _, ?_⟩
        intro h hh hbig
        apply List.mem_append_left
        exact List.mem_map.mpr ⟨h, List.mem_filter.mpr ⟨hh, by simpa using hbig⟩, rfl⟩
      · by_cases hx : matchesAny pats x.1 = true
        · rw [fileFilter, if_pos hx]
          exact ih hmem
        · rw [fileFilter, if_neg hx]
          obtain ⟨ih1, ih2⟩ := ih hmem
          exact ⟨List.mem_cons_of_mem _ ih1,
            fun h hh hbig => List.mem_append_right _ (ih2 h hh hbig)⟩
  · clear hmem hkeep
    induction xs with
    | nil => simp [fileFilter]
    | cons x rest ih =>
      by_cases hx : matchesAny pats x.1 = true
      · rw [List.cons_append, fileFilter, if_pos hx, fileFilter, if_pos hx]
        exact ih
      · rw [List.cons_append, fileFilter, if_neg hx, fileFilter, if_neg hx]
        simp [ih]

/-- The C9 scenario's kept file: `a.py` with one hunk adding line 10. -/
def demoHunkA : Hunk := Hunk.mk "a.py" 10 10 [⟨"x", Origin.added, none, some 10⟩]

/-- The C9 scenario's excluded file: `b.md` with one hunk. -/
def demoHunkB : Hunk := Hunk.mk "b.md" 1 1 [⟨"y", Origin.added, none, some 1⟩]

/-- The C9 scenario's input groups. -/
def demoScenario : List (String × List Hunk) :=
  [("a.py", [demoHunkA]), ("b.md", [demoHunkB])]

/-- Witness for C9: with exclude pattern `*.md` the output keeps exactly
`a.py`'s hunk; `b.md` matches the pattern and is gone. -/
theorem fileFilter_policy_witness :
    ((("a.py", [demoHunkA]) ∈ demoScenario ∧ matchesAny ["*.md"] "a.py" = false) ∧
      matchesAny ["*.md"] "b.md" = true ∧
      fileFilter ["*.md"] 100 demoScenario = ([("a.py", [demoHunkA])], [])) ∧
    (("a.py", [demoHunkA].filter (fun h => decide (hunkSize h ≤ 100))) ∈
        (fileFilter ["*.md"] 100 demoScenario).1 ∧
      ∀ h ∈ [demoHunkA], 100 < hunkSize h → skipNote "a.py" h ∈
        (fileFilter ["*.md"] 100 demoScenario).2) :=
  ⟨⟨⟨by decide, by decide⟩, by decide, by decide⟩,
   (fileFilter_policy ["*.md"] 100 demoScenario [] [] "a.py" [demoHunkA]
     (by decide) (by decide)).2.1⟩

/-! ## CommentMapper (spec section 4.7) -/

/-- Modelled from the spec: a Suggestion has a description, optional
before-text and mandatory after-text. -/
structure Suggestion where
  description : String
  before : Option String
  after : String
deriving Repr, DecidableEq

/-- Modelled from the spec: a Finding targets a file and new-line-number and
carries category, explanation and suggestions. -/
structure Finding where
  file : String
  line : Nat
  category : String
  explanation : String
  suggestions : List Suggestion
deriving Repr, DecidableEq

/-- Modelled from the spec: a finding anchors exactly when its (file, line)
matches the new-line-number of some added or context line of that file's
hunks. -/
def anchorable (hunks : List Hunk) (f : Finding) : Bool :=
  hunks.any (fun h =>
    h.path == f.file &&
      h.lines.any (fun l =>
        (decide (l.origin = Origin.added) || decide (l.origin = Origin.context)) &&
          l.newNo == some f.line))

/-- Outcome of resolving one finding against the chunk's hunks. -/
inductive MapResult
  | anchored (f : Finding) (file : String) (line : Nat)
  | unanchorable (f : Finding) (reason : String)
deriving Repr, DecidableEq

/-- The recorded rejection reason for an unanchorable finding. -/
def unanchorableReason : String :=
  "unanchorable: line is not an added or context line of the diff"

/-- Modelled from the spec: resolve one finding, anchoring it at its (file,
line) when anchorable and otherwise dropping it with a recorded reason. -/
def mapFinding (hunks : List Hunk) (f : Finding) : MapResult :=
  if anchorable hunks f then MapResult.anchored f f.file f.line
  else MapResult.unanchorable f unanchorableReason

/-- Modelled from the spec: CommentMapper resolves every finding of the chunk
against the chunk's hunks. -/
def commentMapper (findings : List Finding) (hunks : List Hunk) : List MapResult :=
  findings.map (mapFinding hunks)

/-- Propositional form of anchorability: some added-or-context line of the
finding's file has the finding's line as its new-line-number. -/
def AnchorableProp (hunks : List Hunk) (f : Finding) : Prop :=
  ∃ h ∈ hunks, h.path = f.file ∧
    ∃ l ∈ h.lines, (l.origin = Origin.added ∨ l.origin = Origin.context) ∧
      l.newNo = some f.line

instance (hunks : List Hunk) (f : Finding) : Decidable (AnchorableProp hunks f) := by
  unfold AnchorableProp
  infer_instance

theorem anchorable_iff (hunks : List Hunk) (f : Finding) :
    anchorable hunks f = true ↔ AnchorableProp hunks f := by
  simp [anchorable, AnchorableProp, List.any_eq_true]

/-- C3: a finding whose (file, line) matches no new-line-number of any added
or context line of the chunk's hunks (removed-only and out-of-range positions
included) is rejected by CommentMapper as unanchorable with the recorded
reason, and never receives an anchor. -/
theorem commentMapper_rejects_unanchorable (findings : List Finding)
    (hunks : List Hunk) (f : Finding) (hmem : f ∈ findings)
    (hno : ¬ AnchorableProp hunks f) :
    MapResult.unanchorable f unanchorableReason ∈ commentMapper findings hunks ∧
    ∀ file line, MapResult.anchored f file line ∉ commentMapper findings hunks := by
  have hb : ¬ (anchorable hunks f = true) := fun h => hno ((anchorable_iff hunks f).mp h)
  constructor
  · refine List.mem_map.mpr ⟨f, hmem, ?_⟩
    rw [mapFinding, if_neg hb]
  · intro file line hcontra
    obtain ⟨g, _, heq⟩ := List.mem_map.mp hcontra
    rw [mapFinding] at heq
    by_cases hg2 : anchorable hunks g = true
    · rw [if_pos hg2] at heq
      cases heq
      exact hb hg2
    · rw [if_neg hg2] at heq
      exact MapResult.noConfusion heq

/-- A finding at b.py:99, a line no hunk of the C3 witness chunk touches. -/
def demoBadFinding : Finding := Finding.mk "b.py" 99 "style" "dangling reference" []

/-- The C3 witness chunk's hunks: one hunk of b.py covering new lines 9 and 10
(and a removed line, which has no new number). -/
def demoMapperHunks : List Hunk :=
  [Hunk.mk "b.py" 9 9 [⟨"k", Origin.context, some 9, some 9⟩,
    ⟨"r", Origin.removed, some 10, none⟩,
    ⟨"a", Origin.added, none, some 10⟩]]

/-- Witness for C3: the finding at b.py:99 is unanchorable in the concrete
chunk and is rejected with the recorded reason, receiving no anchor. -/
theorem commentMapper_rejects_unanchorable_witness :
    (demoBadFinding ∈ [demoBadFinding] ∧
      ¬ AnchorableProp demoMapperHunks demoBadFinding) ∧
    (MapResult.unanchorable demoBadFinding unanchorableReason ∈
        commentMapper [demoBadFinding] demoMapperHunks ∧
      ∀ file line, MapResult.anchored demoBadFinding file line ∉
        commentMapper [demoBadFinding] demoMapperHunks) :=
  ⟨⟨List.mem_singleton.mpr rfl, by decide⟩,
   commentMapper_rejects_unanchorable [demoBadFinding] demoMapperHunks demoBadFinding
     (List.mem_singleton.mpr rfl) (by decide)⟩

/-! ## CommentPublisher (spec section 4.8) -/

/-- An anchored finding ready to publish: target file, line and body text. -/
structure AnchoredFinding where
  file : String
  line : Nat
  body : String
deriving Repr, DecidableEq

/-- Modelled from the spec: body normalization before hashing (whitespace
trimming), so equivalent bodies share a dedup key. -/
def normalizeBody (s : String) : String := s.trim

/-- Modelled from the spec: the body hash of the dedup key, here the
normalized body itself (an injective model of the hash). -/
def bodyHash (s : String) : String := normalizeBody s

/-- The dedup key: (file, line, normalized body hash). -/
def dedupKey (f : AnchoredFinding) : String × Nat × String :=
  (f.file, f.line, bodyHash f.body)

/-- Modelled from the spec: CommentPublisher walks the findings in order,
skipping any finding whose dedup key matches an already-posted comment and
posting the rest; it returns the keys posted by this run and the final set of
posted keys. -/
def publishRun : List AnchoredFinding → List (String × Nat × String) →
    List (String × Nat × String) × List (String × Nat × String)
  | [], posted => ([], posted)
  | f :: rest, posted =>
    if dedupKey f ∈ posted then publishRun rest posted
    else
      ((dedupKey f) :: (publishRun rest ((dedupKey f) :: posted)).1,
       (publishRun rest ((dedupKey f) :: posted)).2)

theorem publishRun_state_mem (fs : List AnchoredFinding) :
    ∀ posted k, k ∈ (publishRun fs posted).2 ↔ k ∈ posted ∨ k ∈ fs.map dedupKey := by
  induction fs with
  | nil => intro posted k; simp [publishRun]
  | cons f rest ih =>
    intro posted k
    by_cases hf : dedupKey f ∈ posted
    · rw [publishRun, if_pos hf]
      rw [ih posted k]
      constructor
      · rintro (hk | hk)
        · exact Or.inl hk
        · exact Or.inr (by simp [hk])
      · rintro (hk | hk)
        · exact Or.inl hk
        · simp only [List.map_cons, List.mem_cons] at hk
          rcases hk with rfl | hk
          · exact Or.inl hf
          · exact Or.inr hk
    · rw [publishRun, if_neg hf]
      simp only [List.map_cons, List.mem_cons]
      rw [ih (dedupKey f :: posted) k]
      simp only [List.mem_cons]
      tauto

theorem publishRun_skips_posted (fs : List AnchoredFinding) :
    ∀ posted, (∀ f ∈ fs, dedupKey f ∈ posted) → publishRun fs posted = ([], posted) := by
  induction fs with
  | nil => intro posted _; rfl
  | cons f rest ih =>
    intro posted hall
    rw [publishRun, if_pos (hall f (List.mem_cons_self _ _))]
    exact ih posted (fun g hg => hall g (List.mem_cons_of_mem _ hg))

theorem publishRun_posted_nodup (fs : List AnchoredFinding) :
    ∀ posted, (publishRun fs posted).1.Nodup ∧
      ∀ k ∈ (publishRun fs posted).1, k ∉ posted ∧ k ∈ fs.map dedupKey := by
  induction fs with
  | nil => intro posted; simp [publishRun]
  | cons f rest ih =>
    intro posted
    by_cases hf : dedupKey f ∈ posted
    · rw [publishRun, if_pos hf]
      refine ⟨(ih posted).1, fun k hk => ?_⟩
      obtain ⟨hnp, hin⟩ := (ih posted).2 k hk
      exact ⟨hnp, by simp [hin]⟩
    · rw [publishRun, if_neg hf]
      obtain ⟨hnd, hrest⟩ := ih (dedupKey f :: posted)
      constructor
      · refine List.nodup_cons.mpr ⟨fun hc => ?_, hnd⟩
        exact ((hrest _ hc).1) (List.mem_cons_self _ _)
      · intro k hk
        rcases List.mem_cons.mp hk with rfl | hk
        · exact ⟨hf, by simp⟩
        · obtain ⟨hnp, hin⟩ := hrest k hk
          exact ⟨fun hc => hnp (List.mem_cons_of_mem _ hc), by simp [hin]⟩

theorem publishRun_complete (fs : List AnchoredFinding) :
    ∀ posted f, f ∈ fs → dedupKey f ∉ posted →
      dedupKey f ∈ (publishRun fs posted).1 := by
  induction fs with
  | nil => intro _ _ h; simp at h
  | cons g rest ih =>
    intro posted f hmem hnp
    rcases List.mem_cons.mp hmem with rfl | hmem
    · rw [publishRun, if_neg hnp]
      exact List.mem_cons_self _ _
    · by_cases hg : dedupKey g ∈ posted
      · rw [publishRun, if_pos hg]
        exact ih posted f hmem hnp
      · rw [publishRun, if_neg hg]
        by_cases heq : dedupKey f = dedupKey g
        · rw [heq]
          exact List.mem_cons_self _ _
        · exact List.mem_cons_of_mem _
            (ih (dedupKey g :: posted) f hmem (by simp [heq, hnp]))

/-- C4: running CommentPublisher a second time over the same findings (same
diff, same model output) posts nothing new and leaves the posted set
unchanged; the first run's posts are duplicate-free and are exactly the
findings' dedup keys, so each distinct finding is posted exactly once in
total. -/
theorem commentPublisher_idempotent (fs : List AnchoredFinding) :
    (publishRun fs (publishRun fs []).2).1 = [] ∧
    (publishRun fs (publishRun fs []).2).2 = (publishRun fs []).2 ∧
    (publishRun fs []).1.Nodup ∧
    (∀ k, k ∈ (publishRun fs []).1 ↔ k ∈ fs.map dedupKey) := by
  have hall : ∀ f ∈ fs, dedupKey f ∈ (publishRun fs []).2 := by
    intro f hf
    rw [publishRun_state_mem fs [] (dedupKey f)]
    exact Or.inr (List.mem_map.mpr ⟨f, hf, rfl⟩)
  have hskip := publishRun_skips_posted fs (publishRun fs []).2 hall
  refine ⟨by rw [hskip], by rw [hskip], (publishRun_posted_nodup fs []).1, fun k => ?_⟩
  constructor
  · intro hk
    exact ((publishRun_posted_nodup fs []).2 k hk).2
  · intro hk
    obtain ⟨f, hf, rfl⟩ := List.mem_map.mp hk
    exact publishRun_complete fs [] f hf (by simp)

/-! ## SuggestionParser (spec section 4.6) -/

/-- The fenced-block delimiter line. -/
def fence : String := "```"

/-- A response line is a delimiter line exactly when it is the fence. -/
def isFence (s : String) : Bool := s == fence

/-- Modelled from the spec: locate the structured block by delimiter scanning —
the lines strictly between the first fence line and the next fence line;
`none` when no complete fenced block exists. -/
def extractBlock (ls : List String) : Option (List String) :=
  match ls.dropWhile (fun s => !(isFence s)) with
  | [] => none
  | _ :: after =>
    if (after.dropWhile (fun s => !(isFence s))).isEmpty then none
    else some (after.takeWhile (fun s => !(isFence s)))

/-- Modelled from the spec: one structured line `file|line|category|explanation`
becomes a finding; a line missing a required field (empty file, unparsable
line number) yields none and is dropped individually. -/
def parseFindingLine (s : String) : Option Finding :=
  match s.splitOn "|" with
  | file :: lineStr :: category :: explanation :: _ =>
    if file.isEmpty then none
    else
      match lineStr.toNat? with
      | some n => some (Finding.mk file n category explanation [])
      | none => none
  | _ => none

/-- Modelled from the spec: SuggestionParser extracts the structured block,
strictly parses only the extracted span, and reports a ParseFailure when no
recoverable block exists. -/
def suggestionParser (ls : List String) : Except String (List Finding) :=
  match extractBlock ls with
  | none => Except.error "ParseFailure: no structured block in model response"
  | some content => Except.ok (content.filterMap parseFindingLine)

theorem dropWhile_append_of_all {α : Type} (p : α → Bool) (xs ys : List α)
    (hx : ∀ s ∈ xs, p s = true) :
    (xs ++ ys).dropWhile p = ys.dropWhile p := by
  induction xs with
  | nil => simp
  | cons x t ih =>
    rw [List.cons_append, List.dropWhile_cons]
    simp only [hx x (List.mem_cons_self _ _), if_true]
    exact ih (fun s hs => hx s (List.mem_cons_of_mem _ hs))

theorem takeWhile_append_stop {α : Type} (p : α → Bool) (xs : List α) (y : α)
    (ys : List α) (hx : ∀ s ∈ xs, p s = true) (hy : p y = false) :
    (xs ++ y :: ys).takeWhile p = xs := by
  induction xs with
  | nil => simp [List.takeWhile_cons, hy]
  | cons x t ih =>
    simp [List.takeWhile_cons, hx x (List.mem_cons_self _ _),
      ih (fun s hs => hx s (List.mem_cons_of_mem _ hs))]

theorem extractBlock_block (P1 P2 mid : List String)
    (h1 : ∀ s ∈ P1, isFence s = false) (hm : ∀ s ∈ mid, isFence s = false) :
    extractBlock (P1 ++ fence :: (mid ++ fence :: P2)) = some mid := by
  have hp1 : ∀ s ∈ P1, (fun s => !(isFence s)) s = true :=
    fun s hs => by simp [h1 s hs]
  have hpm : ∀ s ∈ mid, (fun s => !(isFence s)) s = true :=
    fun s hs => by simp [hm s hs]
  have hpf : (fun s => !(isFence s)) fence = false := by simp [isFence]
  have e1 : List.dropWhile (fun s => !(isFence s))
      (P1 ++ fence :: (mid ++ fence :: P2)) = fence :: (mid ++ fence :: P2) := by
    rw [dropWhile_append_of_all _ P1 _ hp1, List.dropWhile_cons]
    simp [hpf]
  have e2 : List.takeWhile (fun s => !(isFence s)) (mid ++ fence :: P2) = mid :=
    takeWhile_append_stop _ mid fence P2 hpm hpf
  have e3 : List.dropWhile (fun s => !(isFence s)) (mid ++ fence :: P2) =
      fence :: P2 := by
    rw [dropWhile_append_of_all _ mid _ hpm, List.dropWhile_cons]
    simp [hpf]
  unfold extractBlock
  rw [e1]
  simp [e2, e3]

/-- C7: conversational wrapper text never changes the parse result — for any
structured block (a fence line, block lines none of which is a fence, a
closing fence), any prose before it with no fence line, and any trailing
lines, SuggestionParser produces exactly the findings of the block alone. -/
theorem suggestionParser_prose_invariant (P1 P2 mid : List String)
    (h1 : ∀ s ∈ P1, isFence s = false) (hm : ∀ s ∈ mid, isFence s = false) :
    suggestionParser (P1 ++ (fence :: mid ++ [fence]) ++ P2) =
      suggestionParser (fence :: mid ++ [fence]) := by
  have hL := extractBlock_block P1 P2 mid h1 hm
  have hR := extractBlock_block [] [] mid (by intro s hs; simp at hs) hm
  simp only [List.nil_append] at hR
  unfold suggestionParser
  have hshape : P1 ++ (fence :: mid ++ [fence]) ++ P2 =
      P1 ++ fence :: (mid ++ fence :: P2) := by
    simp
  have hshape2 : fence :: mid ++ [fence] = fence :: (mid ++ fence :: []) := by
    simp
  rw [hshape, hshape2, hL, hR]

/-- Witness for C7: prose before and after a one-line structured block leaves
the parse result unchanged. -/
theorem suggestionParser_prose_invariant_witness :
    ((∀ s ∈ ["Here is my review."], isFence s = false) ∧
      (∀ s ∈ ["a.py|3|style|use a clearer name"], isFence s = false)) ∧
    suggestionParser (["Here is my review."] ++
        (fence :: ["a.py|3|style|use a clearer name"] ++ [fence]) ++
        ["Hope that helps!"]) =
      suggestionParser (fence :: ["a.py|3|style|use a clearer name"] ++ [fence]) :=
  ⟨⟨by decide, by decide⟩,
   suggestionParser_prose_invariant ["Here is my review."] ["Hope that helps!"]
     ["a.py|3|style|use a clearer name"] (by decide) (by decide)⟩

/-! ## ReviewClient (spec section 4.5) -/

/-- Backend failure kinds. -/
inductive FailKind
  | timeout
  | rateLimited
  | serverError
  | invalidCredential
deriving Repr, DecidableEq

/-- Outcome of one backend call. -/
inductive CallResult
  | ok (text : String)
  | fail (k : FailKind)
deriving Repr, DecidableEq

/-- Outcome of one chunk's submission after the retry policy. -/
inductive SubmitResult
  | success (text : String)
  | exhausted (k : FailKind)
  | fatal
deriving Repr, DecidableEq

/-- Modelled from the spec: the retry loop after the single ServerError retry
has been used — a further ServerError exhausts the chunk, while Timeout and
RateLimited keep being retried with doubling backoff within `budget`.
`backend i` is the outcome of the (i+1)-th call, `i` the calls already made,
`delay` the next backoff delay.  Returns the result, the total number of
calls made, and the backoff delays slept. -/
def submitLoopSR (backend : Nat → CallResult) : Nat → Nat → Nat →
    SubmitResult × Nat × List Nat
  | 0, i, _ =>
    (match backend i with
      | CallResult.ok t => (SubmitResult.success t, i + 1, [])
      | CallResult.fail FailKind.invalidCredential => (SubmitResult.fatal, i + 1, [])
      | CallResult.fail FailKind.serverError =>
          (SubmitResult.exhausted FailKind.serverError, i + 1, [])
      | CallResult.fail FailKind.timeout =>
          (SubmitResult.exhausted FailKind.timeout, i + 1, [])
      | CallResult.fail FailKind.rateLimited =>
          (SubmitResult.exhausted FailKind.rateLimited, i + 1, []))
  | b + 1, i, delay =>
    (match backend i with
      | CallResult.ok t => (SubmitResult.success t, i + 1, [])
      | CallResult.fail FailKind.invalidCredential => (SubmitResult.fatal, i + 1, [])
      | CallResult.fail FailKind.serverError =>
          (SubmitResult.exhausted FailKind.serverError, i + 1, [])
      | CallResult.fail FailKind.timeout =>
          ((submitLoopSR backend b (i + 1) (2 * delay)).1,
           (submitLoopSR backend b (i + 1) (2 * delay)).2.1,
           delay :: (submitLoopSR backend b (i + 1) (2 * delay)).2.2)
      | CallResult.fail FailKind.rateLimited =>
          ((submitLoopSR backend b (i + 1) (2 * delay)).1,
           (submitLoopSR backend b (i + 1) (2 * delay)).2.1,
           delay :: (submitLoopSR backend b (i + 1) (2 * delay)).2.2))

/-- Modelled from the spec: the retry loop with the ServerError retry still
available.  Timeout and RateLimited are retried with doubling exponential
backoff while `budget` lasts; a ServerError is retried once by switching to
the post-server-retry loop; InvalidCredential is fatal immediately. -/
def submitLoop (backend : Nat → CallResult) : Nat → Nat → Nat →
    SubmitResult × Nat × List Nat
  | 0, i, delay =>
    (match backend i with
      | CallResult.ok t => (SubmitResult.success t, i + 1, [])
      | CallResult.fail FailKind.invalidCredential => (SubmitResult.fatal, i + 1, [])
      | CallResult.fail FailKind.serverError => submitLoopSR backend 0 (i + 1) delay
      | CallResult.fail FailKind.timeout =>
          (SubmitResult.exhausted FailKind.timeout, i + 1, [])
      | CallResult.fail FailKind.rateLimited =>
          (SubmitResult.exhausted FailKind.rateLimited, i + 1, []))
  | b + 1, i, delay =>
    (match backend i with
      | CallResult.ok t => (SubmitResult.success t, i + 1, [])
      | CallResult.fail FailKind.invalidCredential => (SubmitResult.fatal, i + 1, [])
      | CallResult.fail FailKind.serverError =>
          submitLoopSR backend (b + 1) (i + 1) delay
      | CallResult.fail FailKind.timeout =>
          ((submitLoop backend b (i + 1) (2 * delay)).1,
           (submitLoop backend b (i + 1) (2 * delay)).2.1,
           delay :: (submitLoop backend b (i + 1) (2 * delay)).2.2)
      | CallResult.fail FailKind.rateLimited =>
          ((submitLoop backend b (i + 1) (2 * delay)).1,
           (submitLoop backend b (i + 1) (2 * delay)).2.1,
           delay :: (submitLoop backend b (i + 1) (2 * delay)).2.2))

/-- Submit one chunk with the full retry budget and initial backoff `base`. -/
def submitChunk (backend : Nat → CallResult) (budget base : Nat) :
    SubmitResult × Nat × List Nat :=
  submitLoop backend budget 0 base

/-- Per-chunk outcome at run level. -/
inductive ChunkStatus
  | reviewed (text : String)
  | skipped (k : FailKind)
  | notProcessed
deriving Repr, DecidableEq

/-- Run-level status of a non-fatal submission result. -/
def statusOf : SubmitResult → ChunkStatus
  | SubmitResult.success t => ChunkStatus.reviewed t
  | SubmitResult.exhausted k => ChunkStatus.skipped k
  | SubmitResult.fatal => ChunkStatus.notProcessed

/-- Modelled from the spec: process each chunk's backend in order; a fatal
InvalidCredential aborts the entire run (that chunk and every remaining chunk
end not processed and the abort flag is set), while any other per-chunk
outcome is recorded and the siblings proceed. -/
def runReview (budget base : Nat) : List (Nat → CallResult) → List ChunkStatus × Bool
  | [] => ([], false)
  | b :: rest =>
    match (submitChunk b budget base).1 with
    | SubmitResult.fatal =>
        (ChunkStatus.notProcessed :: rest.map (fun _ => ChunkStatus.notProcessed), true)
    | SubmitResult.success t =>
        (ChunkStatus.reviewed t :: (runReview budget base rest).1,
         (runReview budget base rest).2)
    | SubmitResult.exhausted k =>
        (ChunkStatus.skipped k :: (runReview budget base rest).1,
         (runReview budget base rest).2)

theorem delays_shift (b delay : Nat) :
    delay :: (List.range b).map (fun j => 2 ^ j * (2 * delay)) =
      (List.range (b + 1)).map (fun j => 2 ^ j * delay) := by
  rw [List.range_succ_eq_map, List.map_cons, List.map_map]
  refine congrArg₂ List.cons (by simp) ?_
  refine List.map_congr_left ?_
  intro j hj
  simp only [Function.comp_apply, pow_succ]
  ring

theorem submitLoop_all_fail (k : FailKind)
    (hk : k = FailKind.timeout ∨ k = FailKind.rateLimited)
    (backend : Nat → CallResult) (hb : ∀ j, backend j = CallResult.fail k) :
    ∀ budget i delay : Nat,
      submitLoop backend budget i delay =
        (SubmitResult.exhausted k, i + budget + 1,
         (List.range budget).map (fun j => 2 ^ j * delay)) := by
  intro budget
  induction budget with
  | zero =>
    intro i delay
    rw [submitLoop, hb i]
    rcases hk with rfl | rfl <;> simp
  | succ b ih =>
    intro i delay
    rw [submitLoop, hb i]
    rcases hk with rfl | rfl <;>
      (dsimp only
       simp only [ih (i + 1) (2 * delay), delays_shift, Prod.mk.injEq]
       refine ⟨trivial, by omega, trivial⟩)

theorem submitLoop_invalid (backend : Nat → CallResult) (budget base : Nat)
    (h0 : backend 0 = CallResult.fail FailKind.invalidCredential) :
    submitChunk backend budget base = (SubmitResult.fatal, 1, []) := by
  cases budget with
  | zero => rw [submitChunk, submitLoop, h0]
  | succ b => rw [submitChunk, submitLoop, h0]

theorem runReview_fatal (backend : Nat → CallResult) (budget base : Nat)
    (rest : List (Nat → CallResult))
    (h : (submitChunk backend budget base).1 = SubmitResult.fatal) :
    runReview budget base (backend :: rest) =
      (ChunkStatus.notProcessed :: rest.map (fun _ => ChunkStatus.notProcessed), true) := by
  rw [runReview, h]

theorem runReview_isolated (backend : Nat → CallResult) (budget base : Nat)
    (rest : List (Nat → CallResult))
    (h : (submitChunk backend budget base).1 ≠ SubmitResult.fatal) :
    runReview budget base (backend :: rest) =
      (statusOf (submitChunk backend budget base).1 :: (runReview budget base rest).1,
       (runReview budget base rest).2) := by
  rw [runReview]
  cases hr : (submitChunk backend budget base).1 with
  | success t => rfl
  | exhausted k => rfl
  | fatal => exact absurd hr h

/-- C5: the retry policy of the review client — (a) an InvalidCredential on a
chunk's first call is never retried (exactly one call is made) and aborts the
entire run, leaving that chunk and every sibling not processed; (b) a backend
failing persistently with Timeout or RateLimited is retried with doubling
exponential backoff until the bounded attempt count (budget + 1 calls) is
exhausted; (c) a ServerError is retried exactly once — a second ServerError
exhausts the chunk after two calls, while a success on the retry reviews the
chunk; (d) a chunk whose submission ends non-fatally only downgrades that
chunk (an exhausted chunk becomes skipped) and never aborts its sibling
chunks. -/
theorem reviewClient_retry_policy (budget base : Nat) :
    (∀ backend : Nat → CallResult, ∀ rest : List (Nat → CallResult),
      backend 0 = CallResult.fail FailKind.invalidCredential →
        submitChunk backend budget base = (SubmitResult.fatal, 1, []) ∧
        runReview budget base (backend :: rest) =
          (ChunkStatus.notProcessed :: rest.map (fun _ => ChunkStatus.notProcessed),
           true)) ∧
    (∀ backend : Nat → CallResult, ∀ k : FailKind,
      (k = FailKind.timeout ∨ k = FailKind.rateLimited) →
      (∀ j, backend j = CallResult.fail k) →
      submitChunk backend budget base =
        (SubmitResult.exhausted k, budget + 1,
         (List.range budget).map (fun j => 2 ^ j * base))) ∧
    (∀ backend : Nat → CallResult,
      backend 0 = CallResult.fail FailKind.serverError →
      (backend 1 = CallResult.fail FailKind.serverError →
        submitChunk backend budget base =
          (SubmitResult.exhausted FailKind.serverError, 2, [])) ∧
      (∀ t, backend 1 = CallResult.ok t →
        submitChunk backend budget base = (SubmitResult.success t, 2, []))) ∧
    (∀ backend : Nat → CallResult, ∀ rest : List (Nat → CallResult),
      (submitChunk backend budget base).1 ≠ SubmitResult.fatal →
      runReview budget base (backend :: rest) =
        (statusOf (submitChunk backend budget base).1 :: (runReview budget base rest).1,
         (runReview budget base rest).2)) := by
  refine ⟨?_, ?_, ?_, ?_⟩
  · intro backend rest h0
    refine ⟨submitLoop_invalid backend budget base h0, ?_⟩
    exact runReview_fatal backend budget base rest
      (by rw [submitLoop_invalid backend budget base h0])
  · intro backend k hk hb
    rw [submitChunk, submitLoop_all_fail k hk backend hb budget 0 base]
    simp
  · intro backend h0
    constructor
    · intro h1
      cases budget with
      | zero =>
        rw [submitChunk, submitLoop, h0]
        dsimp only
        rw [submitLoopSR, h1]
      | succ b =>
        rw [submitChunk, submitLoop, h0]
        dsimp only
        rw [submitLoopSR, h1]
    · intro t h1
      cases budget with
      | zero =>
        rw [submitChunk, submitLoop, h0]
        dsimp only
        rw [submitLoopSR, h1]
      | succ b =>
        rw [submitChunk, submitLoop, h0]
        dsimp only
        rw [submitLoopSR, h1]
  · intro backend rest h
    exact runReview_isolated backend budget base rest h

/-- Witness for C5 at concrete backends: a persistently rate-limited-free
backend that always times out is retried twice under budget 2 with backoff
delays 1 then 2 and then skipped, and an InvalidCredential on the first call
makes exactly one call. -/
theorem reviewClient_retry_policy_witness :
    submitChunk (fun _ => CallResult.fail FailKind.timeout) 2 1 =
      (SubmitResult.exhausted FailKind.timeout, 3, [1, 2]) ∧
    submitChunk (fun _ => CallResult.fail FailKind.invalidCredential) 2 1 =
      (SubmitResult.fatal, 1, []) :=
  ⟨by
    have h := (reviewClient_retry_policy 2 1).2.1
      (fun _ => CallResult.fail FailKind.timeout) FailKind.timeout
      (Or.inl rfl) (fun j => rfl)
    simpa using h,
   ((reviewClient_retry_policy 2 1).1
     (fun _ => CallResult.fail FailKind.invalidCredential) [] rfl).1⟩

/-- Demo findings for the C4 witness: a duplicated finding and a distinct one. -/
def demoFindings : List AnchoredFinding :=
  [AnchoredFinding.mk "a.py" 3 "use a clearer name",
   AnchoredFinding.mk "a.py" 3 "use a clearer name",
   AnchoredFinding.mk "b.py" 7 "remove dead code"]

/-- Witness for C4 at concrete findings: the second publisher run over the
same findings posts nothing. -/
theorem commentPublisher_idempotent_witness :
    (publishRun demoFindings (publishRun demoFindings []).2).1 = [] ∧
    (publishRun demoFindings []).1.Nodup :=
  ⟨(commentPublisher_idempotent demoFindings).1,
   (commentPublisher_idempotent demoFindings).2.2.1⟩

end GeminiReviewer
